import Mathlib

/-!
Verification of the document-to-chunk pipeline of `rag_utils.py`.

Text is modelled as `List Char` (`Str`); Python's `str.splitlines`,
`str.strip`, `'\n'.join`, `line.startswith('## ')` and `line[3:]` are
embedded as executable functions on character lists (line breaks are
modelled as the newline character).  The per-document filesystem state
(the Markdown file and its `.yaml` / `.yml` sidecars) is an explicit
record, and the document processor is a pure function from that state.
-/

namespace RagUtils

/-- Text as a list of characters. -/
abbrev Str := List Char

/-- Whitespace characters stripped by Python's `str.strip()`. -/
def isWS (c : Char) : Bool :=
  c = ' ' || c = '\t' || c = '\n' || c = '\r' || c = '\x0b' || c = '\x0c'

/-- Python `str.strip()`: drop the maximal whitespace prefix and suffix. -/
def strip (s : Str) : Str :=
  ((s.dropWhile isWS).reverse.dropWhile isWS).reverse

/-- Python `str.splitlines()` for newline-separated text: splits at each
newline character; a trailing newline produces no trailing empty line. -/
def splitlines : Str → List Str
  | [] => []
  | c :: rest =>
    if c = '\n' then [] :: splitlines rest
    else
      match splitlines rest with
      | [] => [[c]]
      | l :: ls => (c :: l) :: ls

/-- Python `'\n'.join(lines)`. -/
def joinlines : List Str → Str
  | [] => []
  | [l] => l
  | l :: ls => l ++ '\n' :: joinlines ls

/-- The level-2 heading marker `"## "` tested by `line.startswith('## ')`. -/
def h2mark : Str := ['#', '#', ' ']

/-- The loop of `split_to_chunks`: `buf` is the accumulation buffer; on a
break-marker line a non-empty buffer is flushed (joined and stripped) and
the marker line starts the new buffer; at end of input the buffer is
flushed. -/
def splitGo (buf : List Str) : List Str → List Str
  | [] => if buf.isEmpty then [] else [strip (joinlines buf)]
  | line :: rest =>
    if h2mark.isPrefixOf line then
      if buf.isEmpty then splitGo [line] rest
      else strip (joinlines buf) :: splitGo [line] rest
    else splitGo (buf ++ [line]) rest

/-- `split_to_chunks(content)`: split markdown at `## ` headings; chunks
that strip to the empty string are dropped. -/
def split_to_chunks (content : Str) : List Str :=
  (splitGo [] (splitlines content)).filter (fun ch => !ch.isEmpty)

/-- `parse_all_headers(content)`: the stripped text after `## ` of every
line starting with `## `, in order. -/
def parse_all_headers (content : Str) : List Str :=
  ((splitlines content).filter (fun l => h2mark.isPrefixOf l)).map
    (fun l => strip (l.drop 3))

/-- The sentinel tag `'Misc'`. -/
def miscTag : Str := ['M', 'i', 's', 'c']

/-- `tag_chunks(chunks, tags)`: every chunk receives `tags[0]` if `tags`
is non-empty, else `'Misc'`. -/
def tag_chunks (chunks : List Str) (tags : List Str) : List Str :=
  chunks.map (fun _ => match tags with | [] => miscTag | t :: _ => t)

/-- The YAML value stored under the `tags` key of a sidecar: absent, a
bare scalar string, or a list of strings. -/
inductive TagsVal where
  | absent : TagsVal
  | scalar (s : Str) : TagsVal
  | list (l : List Str) : TagsVal
deriving DecidableEq, Repr

/-- Python truthiness of `metadata.get('tags', [])`: an absent key yields
`[]` (falsy); a scalar is truthy iff non-empty; a list iff non-empty. -/
def TagsVal.truthy : TagsVal → Bool
  | .absent => false
  | .scalar s => !s.isEmpty
  | .list l => !l.isEmpty

/-- The `isinstance(x, list)` coercion applied to a truthy tags value:
`tags_from_metadata if isinstance(tags_from_metadata, list) else
[tags_from_metadata]` (an absent key gives the default `[]`). -/
def TagsVal.coerce : TagsVal → List Str
  | .absent => []
  | .scalar s => [s]
  | .list l => l

/-- The parsed content of a sidecar file: the `doc_id` key (optional) and
the `tags` key. -/
structure Metadata where
  doc_id : Option Str
  tags : TagsVal
deriving DecidableEq, Repr

/-- The empty dictionary `{}` returned when no sidecar is found, parsing
fails, or the file parses to nothing. -/
def emptyMeta : Metadata := ⟨none, .absent⟩

/-- A sidecar file on disk: either it fails to parse (`yaml.safe_load`
raises), or it parses to a metadata dictionary (an empty or null file is
the empty dictionary). -/
inductive SidecarContent where
  | malformed : SidecarContent
  | wellFormed (m : Metadata) : SidecarContent
deriving DecidableEq, Repr

instance {ε α : Type} [DecidableEq ε] [DecidableEq α] :
    DecidableEq (Except ε α) := fun x y =>
  match x, y with
  | .ok a, .ok b =>
    if h : a = b then isTrue (by rw [h]) else isFalse (by simp [h])
  | .error a, .error b =>
    if h : a = b then isTrue (by rw [h]) else isFalse (by simp [h])
  | .ok _, .error _ => isFalse (by simp)
  | .error _, .ok _ => isFalse (by simp)

/-- The filesystem state relevant to one Markdown document: its filename
stem, the outcome of reading its content, the `.yaml` and `.yml` sidecar
files (present or not), and whether an attempted sidecar write raises
(with which message). -/
structure DocState where
  stem : Str
  content : Except Str Str
  yamlFile : Option SidecarContent
  ymlFile : Option SidecarContent
  writeFails : Option Str
deriving DecidableEq, Repr

/-- `str(f)`: the document's path. -/
def DocState.mdPath (d : DocState) : Str := d.stem ++ ['.', 'm', 'd']

/-- `md_file_path.with_suffix('.yaml')`: the primary sidecar path. -/
def DocState.yamlPath (d : DocState) : Str := d.stem ++ ['.', 'y', 'a', 'm', 'l']

/-- `load_yaml_metadata(md_file_path)`: probe the `.yaml` sidecar first;
if present, return its parsed content, or `{}` on a parse error — the
`.yml` file is not consulted.  Otherwise probe `.yml` the same way.  If
neither exists, return `{}`. -/
def load_yaml_metadata (d : DocState) : Metadata :=
  match d.yamlFile with
  | some .malformed => emptyMeta
  | some (.wellFormed m) => m
  | none =>
    match d.ymlFile with
    | some .malformed => emptyMeta
    | some (.wellFormed m) => m
    | none => emptyMeta

/-- `generate_yaml_metadata(md_file_path, doc_id, tags, overwrite)`:
if the `.yaml` file exists and `overwrite` is false, return its path
without writing; otherwise write `{'doc_id': doc_id, 'tags': tags}` to
the `.yaml` path (raising the write error if the write fails). -/
def generate_yaml_metadata (d : DocState) (doc_id : Str) (tags : List Str)
    (overwrite : Bool) : Except Str (DocState × Str) :=
  if d.yamlFile.isSome && !overwrite then .ok (d, d.yamlPath)
  else
    match d.writeFails with
    | some e => .error e
    | none =>
      .ok ({ d with yamlFile := some (.wellFormed ⟨some doc_id, .list tags⟩) },
           d.yamlPath)

/-- Lines 148–156 of `rag_utils.py`: reconcile `doc_id` and `tags` from
the overwrite flag, the filename stem, the loaded metadata and the
header-derived tags. -/
def reconcile (overwrite_yaml : Bool) (stem : Str) (metadata : Metadata)
    (tags_from_headers : List Str) : Str × List Str :=
  if overwrite_yaml then (stem, tags_from_headers)
  else
    (metadata.doc_id.getD stem,
     if metadata.tags.truthy then metadata.tags.coerce else tags_from_headers)

/-- Lines 162–167 of `rag_utils.py`: the `should_generate` condition. -/
def should_generate (d : DocState) (overwrite_yaml : Bool) (metadata : Metadata)
    (doc_id : Str) (tags_from_headers : List Str) : Bool :=
  !d.yamlFile.isSome || overwrite_yaml ||
    decide (metadata.doc_id ≠ some doc_id) ||
    (!metadata.tags.truthy && !tags_from_headers.isEmpty)

/-- One chunk record appended to the accumulator: text, `doc_id`, the
single assigned tag, the full tag list, and the source path. -/
structure Chunk where
  text : Str
  doc_id : Str
  tag : Str
  tags : List Str
  path : Str
deriving DecidableEq, Repr

/-- The chunk objects built for one document (lines 172–186). -/
def chunkObjs (md_content : Str) (doc_id : Str) (tags : List Str)
    (path : Str) : List Chunk :=
  List.zipWith (fun c t => ⟨c, doc_id, t, tags, path⟩)
    (split_to_chunks md_content)
    (tag_chunks (split_to_chunks md_content) tags)

/-- The report entry recorded for one document: a processed entry
(file, doc_id, tags, chunk count) or an error entry (file, message). -/
inductive ReportEntry where
  | processed (file : Str) (doc_id : Str) (tags : List Str) (chunks : Nat)
  | error (file : Str) (err : Str)
deriving DecidableEq, Repr

/-- The outcome of processing one document: the resulting filesystem
state, the chunk objects, the report entry, and — for observing the
write decision — the `overwrite` flag of the `generate_yaml_metadata`
call when one was made. -/
structure ProcOut where
  doc : DocState
  chunks : List Chunk
  entry : ReportEntry
  writeCall : Option Bool
deriving DecidableEq, Repr

/-- The body of the per-file loop of `process_markdown_docs` (lines
134–195): read the file, load metadata, reconcile, conditionally write
the sidecar, chunk, tag, and record an entry; any read or write failure
yields an error entry for this file. -/
def processOne (d : DocState) (auto_generate_yaml overwrite_yaml : Bool) :
    ProcOut :=
  match d.content with
  | .error e => ⟨d, [], .error d.mdPath e, none⟩
  | .ok md_content =>
    let metadata := load_yaml_metadata d
    let tags_from_headers := parse_all_headers md_content
    let dt := reconcile overwrite_yaml d.stem metadata tags_from_headers
    if auto_generate_yaml &&
        should_generate d overwrite_yaml metadata dt.1 tags_from_headers then
      match generate_yaml_metadata d dt.1 dt.2
          (overwrite_yaml || !d.yamlFile.isSome) with
      | .error e =>
        ⟨d, [], .error d.mdPath e, some (overwrite_yaml || !d.yamlFile.isSome)⟩
      | .ok p =>
        ⟨p.1, chunkObjs md_content dt.1 dt.2 d.mdPath,
         .processed d.mdPath dt.1 dt.2 (split_to_chunks md_content).length,
         some (overwrite_yaml || !d.yamlFile.isSome)⟩
    else
      ⟨d, chunkObjs md_content dt.1 dt.2 d.mdPath,
       .processed d.mdPath dt.1 dt.2 (split_to_chunks md_content).length,
       none⟩

/-- The run report: `processed` entries (file, doc_id, tags, chunk count)
and `errors` entries (file, err), each in traversal order. -/
structure Report where
  processed : List (Str × Str × List Str × Nat)
  errors : List (Str × Str)
deriving DecidableEq, Repr

/-- Record one entry at the front of a report (used by the recursion of
`process_markdown_docs`, which processes the head document first). -/
def consEntry : ReportEntry → Report → Report
  | .processed f i t n, r => ⟨(f, i, t, n) :: r.processed, r.errors⟩
  | .error f e, r => ⟨r.processed, (f, e) :: r.errors⟩

/-- `process_markdown_docs(docs_dir, auto_generate_yaml, overwrite_yaml)`
over the tree's Markdown files in traversal order: returns the resulting
filesystem states, the chunk accumulator, and the report. -/
def process_markdown_docs :
    List DocState → Bool → Bool → List DocState × List Chunk × Report
  | [], _, _ => ([], [], ⟨[], []⟩)
  | d :: ds, auto, ow =>
    let r := processOne d auto ow
    let rest := process_markdown_docs ds auto ow
    (r.doc :: rest.1, r.chunks ++ rest.2.1, consEntry r.entry rest.2.2)

/-! Concrete instances used by witnesses and counterexamples. -/

/-- A sample well-formed metadata value. -/
def mW : Metadata := ⟨some ['i', 'd'], .list [['t']]⟩

/-- A document whose `.yaml` sidecar holds `mW` and whose `.yml` sidecar
is malformed. -/
def dLoadW : DocState :=
  ⟨['a'], .ok [], some (.wellFormed mW), some .malformed, none⟩

/-- A document with an existing (malformed) `.yaml` sidecar, for the
save no-op witness. -/
def dSaveW : DocState := ⟨['b'], .ok [], some .malformed, none, none⟩

/-- A document with no `.yaml` sidecar whose `.yml` sidecar already holds
the reconciled values: the code writes a `.yaml` file although a sidecar
exists, its stored `doc_id` matches and its tags are non-empty. -/
def dYml : DocState :=
  ⟨['a'], .ok [], none, some (.wellFormed ⟨some ['a'], .list [['t']]⟩), none⟩

/-- A document whose read fails, for the error-containment witness. -/
def dErrW : DocState := ⟨['e'], .error ['m'], none, none, none⟩

/-- A body with a preamble line and two heading sections, for the chunk
shape witness: `"x\n## A\n## B"`. -/
def cW : Str := ['x', '\n', '#', '#', ' ', 'A', '\n', '#', '#', ' ', 'B']

/-! ## Theorems -/

/-! Helper lemmas on `dropWhile`, `strip`, `splitlines` and `joinlines`. -/

theorem dropWhile_self {α : Type} (p : α → Bool) (l : List α) :
    List.dropWhile p (List.dropWhile p l) = List.dropWhile p l := by
  induction l with
  | nil => rfl
  | cons c cs ih =>
    by_cases h : p c
    · simp [List.dropWhile_cons, h, ih]
    · simp [List.dropWhile_cons, h]

theorem head?_dropWhile {α : Type} (p : α → Bool) (l : List α) (c : α)
    (h : (List.dropWhile p l).head? = some c) : p c = false := by
  induction l with
  | nil => simp at h
  | cons a as ih =>
    by_cases hp : p a
    · rw [List.dropWhile_cons, if_pos hp] at h
      exact ih h
    · rw [List.dropWhile_cons, if_neg hp] at h
      simp at h
      rw [← h]
      exact Bool.eq_false_iff.mpr hp

theorem dropWhile_eq_self {α : Type} (p : α → Bool) (l : List α)
    (h : ∀ c, l.head? = some c → p c = false) :
    List.dropWhile p l = l := by
  cases l with
  | nil => rfl
  | cons a as => simp [List.dropWhile_cons, h a rfl]

theorem getLast?_dropWhile {α : Type} (p : α → Bool) (l : List α) :
    List.dropWhile p l = [] ∨
      (List.dropWhile p l).getLast? = l.getLast? := by
  induction l with
  | nil => left; rfl
  | cons a as ih =>
    by_cases hp : p a
    · rw [List.dropWhile_cons, if_pos hp]
      rcases ih with h | h
      · left; exact h
      · cases as with
        | nil => left; rfl
        | cons b bs => right; rw [h, List.getLast?_cons_cons]
    · rw [List.dropWhile_cons, if_neg hp]; right; rfl

theorem strip_head?_not_ws (s : Str) (c : Char)
    (h : (strip s).head? = some c) : isWS c = false := by
  unfold strip at h
  rw [List.head?_reverse] at h
  rcases getLast?_dropWhile isWS (s.dropWhile isWS).reverse with h0 | h0
  · rw [h0] at h; simp at h
  · rw [h0, List.getLast?_reverse] at h
    exact head?_dropWhile isWS s c h

theorem strip_idem (s : Str) : strip (strip s) = strip s := by
  have h1 : (strip s).dropWhile isWS = strip s :=
    dropWhile_eq_self _ _ (fun c hc => strip_head?_not_ws s c hc)
  show (((strip s).dropWhile isWS).reverse.dropWhile isWS).reverse = strip s
  rw [h1]
  have h2 : (strip s).reverse =
      List.dropWhile isWS (s.dropWhile isWS).reverse := by
    simp [strip]
  rw [h2, dropWhile_self]
  simp [strip]

theorem strip_append_ws (t : Str) (c : Char) (hc : isWS c = true) :
    strip (t ++ [c]) = strip t := by
  unfold strip
  rw [List.dropWhile_append]
  by_cases h : (t.dropWhile isWS).isEmpty
  · rw [if_pos h]
    rw [List.isEmpty_iff] at h
    simp [h, List.dropWhile_cons, hc]
  · rw [if_neg h]
    simp [List.dropWhile_cons, hc]

theorem strip_eq_nil_iff (s : Str) : strip s = [] ↔ s.all isWS = true := by
  rw [List.all_eq_true]
  constructor
  · intro h
    have h1 : List.dropWhile isWS (s.dropWhile isWS).reverse = [] := by
      have h2 := congrArg List.reverse h
      simp only [strip, List.reverse_reverse, List.reverse_nil] at h2
      exact h2
    have h2 : ∀ x ∈ (s.dropWhile isWS).reverse, isWS x = true :=
      List.dropWhile_eq_nil_iff.mp h1
    have h3 : List.dropWhile isWS s = [] := by
      cases hd : List.dropWhile isWS s with
      | nil => rfl
      | cons a as =>
        have ha : isWS a = false := head?_dropWhile _ _ _ (by rw [hd]; rfl)
        have hb : isWS a = true := h2 a (by rw [hd]; simp)
        rw [ha] at hb; cases hb
    exact List.dropWhile_eq_nil_iff.mp h3
  · intro h
    have h0 : List.dropWhile isWS s = [] := List.dropWhile_eq_nil_iff.mpr h
    simp [strip, h0]

theorem splitlines_eq_nil_iff (s : Str) : splitlines s = [] ↔ s = [] := by
  constructor
  · intro h
    cases s with
    | nil => rfl
    | cons c rest =>
      by_cases hc : c = '\n'
      · simp [splitlines, hc] at h
      · simp only [splitlines, hc, if_neg] at h
        cases hr : splitlines rest with
        | nil => rw [hr] at h; simp at h
        | cons l ls => rw [hr] at h; simp at h
  · intro h; subst h; rfl

theorem splitlines_newline_cons (rest : Str) :
    splitlines ('\n' :: rest) = [] :: splitlines rest := by
  simp [splitlines]

theorem splitlines_other_cons (c : Char) (rest : Str) (hc : ¬ c = '\n') :
    splitlines (c :: rest) =
      match splitlines rest with
      | [] => [[c]]
      | l :: ls => (c :: l) :: ls := by
  simp [splitlines, hc]

theorem joinlines_cons (l : Str) (ls : List Str) (h : ls ≠ []) :
    joinlines (l :: ls) = l ++ '\n' :: joinlines ls := by
  cases ls with
  | nil => exact absurd rfl h
  | cons b bs => rfl

theorem joinlines_cons_head (c : Char) (l : Str) (ls : List Str) :
    joinlines ((c :: l) :: ls) = c :: joinlines (l :: ls) := by
  cases ls with
  | nil => rfl
  | cons b bs => rfl

theorem joinlines_splitlines (s : Str) :
    s = joinlines (splitlines s) ∨
      s = joinlines (splitlines s) ++ ['\n'] := by
  induction s with
  | nil => left; rfl
  | cons c rest ih =>
    by_cases hc : c = '\n'
    · subst hc
      rw [splitlines_newline_cons]
      cases hr : splitlines rest with
      | nil =>
        have h0 : rest = [] := (splitlines_eq_nil_iff rest).mp hr
        subst h0
        right; rfl
      | cons l ls =>
        rw [joinlines_cons [] (l :: ls) (by simp), List.nil_append]
        rw [hr] at ih
        rcases ih with h | h
        · left; rw [← h]
        · right; rw [List.cons_append, ← h]
    · rw [splitlines_other_cons c rest hc]
      cases hr : splitlines rest with
      | nil =>
        have h0 : rest = [] := (splitlines_eq_nil_iff rest).mp hr
        subst h0
        left; rfl
      | cons l ls =>
        rw [joinlines_cons_head]
        rw [hr] at ih
        rcases ih with h | h
        · left; rw [← h]
        · right; rw [List.cons_append, ← h]

theorem h2mark_isPrefixOf_iff (l : Str) :
    h2mark.isPrefixOf l = true ↔ ∃ t, l = '#' :: '#' :: ' ' :: t := by
  constructor
  · intro h
    match l with
    | [] => simp [h2mark, List.isPrefixOf] at h
    | [a] => simp [h2mark, List.isPrefixOf] at h
    | [a, b] => simp [h2mark, List.isPrefixOf] at h
    | a :: b :: c :: t =>
      simp only [h2mark, List.isPrefixOf, Bool.and_eq_true, beq_iff_eq] at h
      exact ⟨t, by rw [← h.1, ← h.2.1, ← h.2.2.1]⟩
  · rintro ⟨t, rfl⟩
    simp [h2mark, List.isPrefixOf]

theorem h2_prefix_append (l x : Str) (h : h2mark.isPrefixOf l = true) :
    h2mark.isPrefixOf (l ++ x) = true := by
  obtain ⟨t, rfl⟩ := (h2mark_isPrefixOf_iff l).mp h
  exact (h2mark_isPrefixOf_iff _).mpr ⟨t ++ x, by simp⟩

theorem h2_prefix_joinlines (l : Str) (ls : List Str)
    (h : h2mark.isPrefixOf l = true) :
    h2mark.isPrefixOf (joinlines (l :: ls)) = true := by
  cases ls with
  | nil => exact h
  | cons b bs => exact h2_prefix_append l ('\n' :: joinlines (b :: bs)) h

theorem strip_h2 (s : Str) (h : h2mark.isPrefixOf s = true) :
    h2mark.isPrefixOf (strip s) = true ∨ strip s = ['#', '#'] := by
  obtain ⟨t, rfl⟩ := (h2mark_isPrefixOf_iff s).mp h
  have h1 : List.dropWhile isWS ('#' :: '#' :: ' ' :: t) =
      '#' :: '#' :: ' ' :: t := by
    simp [List.dropWhile_cons, isWS]
  have h2 : ('#' :: '#' :: ' ' :: t).reverse =
      t.reverse ++ [' ', '#', '#'] := by simp
  unfold strip
  rw [h1, h2, List.dropWhile_append]
  by_cases h3 : (t.reverse.dropWhile isWS).isEmpty
  · right
    rw [if_pos h3]
    simp [List.dropWhile_cons, isWS]
  · left
    rw [if_neg h3, List.reverse_append]
    refine (h2mark_isPrefixOf_iff _).mpr
      ⟨(List.dropWhile isWS t.reverse).reverse, ?_⟩
    simp

/-- The first flush of `splitGo` never happens when the buffer is empty,
so the head line always joins the running buffer. -/
theorem splitGo_nil_cons (l : Str) (rest : List Str) :
    splitGo [] (l :: rest) = splitGo [l] rest := by
  simp only [splitGo]
  by_cases hl : h2mark.isPrefixOf l <;> simp [hl]

/-- `splitGo` on a non-empty buffer produces the stripped join of the
buffer extended by a first segment, followed by the stripped joins of a
partition of the remaining lines. -/
theorem splitGo_spec (rest : List Str) :
    ∀ buf : List Str, buf ≠ [] →
      ∃ (seg0 : List Str) (segss : List (List Str)),
        rest = seg0 ++ segss.flatten ∧
        splitGo buf rest =
          strip (joinlines (buf ++ seg0)) ::
            segss.map (fun seg => strip (joinlines seg)) := by
  induction rest with
  | nil =>
    intro buf hb
    refine ⟨[], [], by simp, ?_⟩
    simp [splitGo, hb]
  | cons line rest ih =>
    intro buf hb
    by_cases hl : h2mark.isPrefixOf line
    · obtain ⟨seg0, segss, h1, h2⟩ := ih [line] (by simp)
      refine ⟨[], (line :: seg0) :: segss, by simp [h1], ?_⟩
      simp only [splitGo, hl, if_pos]
      rw [if_neg (by simp [hb]), h2]
      simp
    · obtain ⟨seg0, segss, h1, h2⟩ := ih (buf ++ [line]) (by simp)
      refine ⟨line :: seg0, segss, by simp [h1], ?_⟩
      simp only [splitGo, hl]
      rw [if_neg (by simp [hl]), h2]
      simp

/-- C4: joining the chunks of `split_to_chunks` in order reconstructs the
body modulo per-chunk whitespace trimming: there is a partition of the
body's lines into consecutive segments such that the chunks are exactly
the stripped joins of the segments with whitespace-only segments dropped,
and the segments joined back give the body (up to one trailing newline). -/
theorem split_join_reconstruction (content : Str) :
    ∃ segss : List (List Str),
      segss.flatten = splitlines content ∧
      (content = joinlines segss.flatten ∨
        content = joinlines segss.flatten ++ ['\n']) ∧
      split_to_chunks content =
        (segss.map (fun seg => strip (joinlines seg))).filter
          (fun ch => !ch.isEmpty) := by
  cases hs : splitlines content with
  | nil =>
    refine ⟨[], by simp [hs], ?_, by simp [split_to_chunks, hs, splitGo]⟩
    have h0 := joinlines_splitlines content
    rw [hs] at h0
    simpa using h0
  | cons l rest =>
    obtain ⟨seg0, segss, h1, h2⟩ := splitGo_spec rest [l] (by simp)
    refine ⟨(l :: seg0) :: segss, by simp [h1], ?_, ?_⟩
    · have h0 := joinlines_splitlines content
      rw [hs, h1] at h0
      simpa using h0
    · rw [split_to_chunks, hs, splitGo_nil_cons, h2]
      simp

/-- `splitGo` with no break-marker lines accumulates everything into one
buffer, producing a single stripped chunk. -/
theorem splitGo_no_heads (rest : List Str) :
    ∀ buf : List Str, buf ≠ [] →
      (∀ l ∈ rest, h2mark.isPrefixOf l = false) →
      splitGo buf rest = [strip (joinlines (buf ++ rest))] := by
  induction rest with
  | nil => intro buf hb _; simp [splitGo, hb]
  | cons line rest ih =>
    intro buf hb h
    have hl : h2mark.isPrefixOf line = false := h line (by simp)
    simp only [splitGo]
    rw [if_neg (by simp [hl]),
        ih (buf ++ [line]) (by simp) (fun x hx => h x (by simp [hx]))]
    simp

/-- Every element of `splitGo buf rest` is the strip of some string. -/
theorem splitGo_mem_strip (rest : List Str) :
    ∀ buf : List Str, ∀ ch ∈ splitGo buf rest, ∃ s, ch = strip s := by
  induction rest with
  | nil =>
    intro buf ch hch
    by_cases h : buf.isEmpty
    · simp [splitGo, h] at hch
    · simp only [splitGo, h] at hch
      rw [if_neg (by simp [h])] at hch
      simp at hch
      exact ⟨_, hch⟩
  | cons line rest ih =>
    intro buf ch hch
    by_cases hl : h2mark.isPrefixOf line
    · simp only [splitGo] at hch
      rw [if_pos hl] at hch
      by_cases hb : buf.isEmpty
      · rw [if_pos hb] at hch
        exact ih [line] ch hch
      · rw [if_neg hb] at hch
        rcases List.mem_cons.mp hch with h | h
        · exact ⟨_, h⟩
        · exact ih [line] ch h
    · simp only [splitGo] at hch
      rw [if_neg (by simp [hl])] at hch
      exact ih (buf ++ [line]) ch hch

/-- Every chunk flushed from a buffer led by a break-marker line starts
with `"## "`, or is exactly `"##"` when trailing trimming consumed the
space. -/
theorem splitGo_heads (rest : List Str) :
    ∀ (l : Str) (ls : List Str), h2mark.isPrefixOf l = true →
      ∀ ch ∈ splitGo (l :: ls) rest,
        h2mark.isPrefixOf ch = true ∨ ch = ['#', '#'] := by
  induction rest with
  | nil =>
    intro l ls hl ch hch
    simp only [splitGo] at hch
    rw [if_neg (by simp)] at hch
    simp at hch
    rw [hch]
    exact strip_h2 _ (h2_prefix_joinlines l ls hl)
  | cons line rest ih =>
    intro l ls hl ch hch
    by_cases hline : h2mark.isPrefixOf line
    · simp only [splitGo] at hch
      rw [if_pos hline, if_neg (by simp)] at hch
      rcases List.mem_cons.mp hch with h | h
      · rw [h]
        exact strip_h2 _ (h2_prefix_joinlines l ls hl)
      · exact ih line [] hline ch h
    · simp only [splitGo] at hch
      rw [if_neg (by simp [hline])] at hch
      have hres : (l :: ls) ++ [line] = l :: (ls ++ [line]) := by simp
      rw [hres] at hch
      exact ih l (ls ++ [line]) hl ch hch

/-- Every chunk after the first comes from a buffer led by a break-marker
line. -/
theorem splitGo_tail_heads (rest : List Str) :
    ∀ (l : Str) (ls : List Str),
      ∀ ch ∈ (splitGo (l :: ls) rest).tail,
        h2mark.isPrefixOf ch = true ∨ ch = ['#', '#'] := by
  induction rest with
  | nil =>
    intro l ls ch hch
    simp only [splitGo] at hch
    rw [if_neg (by simp)] at hch
    simp at hch
  | cons line rest ih =>
    intro l ls ch hch
    by_cases hline : h2mark.isPrefixOf line
    · simp only [splitGo] at hch
      rw [if_pos hline, if_neg (by simp)] at hch
      rw [List.tail_cons] at hch
      exact splitGo_heads rest line [] hline ch hch
    · simp only [splitGo] at hch
      rw [if_neg (by simp [hline])] at hch
      have hres : (l :: ls) ++ [line] = l :: (ls ++ [line]) := by simp
      rw [hres] at hch
      exact ih l (ls ++ [line]) ch hch

theorem mem_tail_filter {α : Type} {p : α → Bool} :
    ∀ (xs : List α) (ch : α), ch ∈ (xs.filter p).tail → ch ∈ xs.tail
  | [], ch, h => by simp at h
  | c0 :: cs, ch, h => by
    rw [List.filter_cons] at h
    by_cases hp : p c0
    · rw [if_pos hp, List.tail_cons] at h
      exact (List.mem_filter.mp h).1
    · rw [if_neg hp] at h
      exact (List.mem_filter.mp (List.mem_of_mem_tail h)).1

/-- C5: with no level-2 heading line, `split_to_chunks` returns exactly
one chunk (the whole body, trimmed) when the body has a non-whitespace
character and no chunk when the body is empty or whitespace-only; and
when the body begins with a level-2 heading every chunk is a heading
chunk (each starts with the heading marker `##`), so no separate
preamble chunk precedes the first heading's chunk. -/
theorem split_no_heading_chunks (content : Str) :
    ((∀ l ∈ splitlines content, h2mark.isPrefixOf l = false) →
       (content.all isWS = false → split_to_chunks content = [strip content]) ∧
       (content.all isWS = true → split_to_chunks content = [])) ∧
    (∀ l rest, splitlines content = l :: rest →
       h2mark.isPrefixOf l = true →
       ∀ ch ∈ split_to_chunks content,
         (['#', '#'] : Str).isPrefixOf ch = true) := by
  constructor
  · intro hno
    cases hs : splitlines content with
    | nil =>
      have hc : content = [] := (splitlines_eq_nil_iff content).mp hs
      subst hc
      exact ⟨fun hf => by simp at hf, fun _ => rfl⟩
    | cons l rest =>
      have hone : splitGo [l] rest = [strip (joinlines (l :: rest))] := by
        have h0 := splitGo_no_heads rest [l] (by simp)
          (fun x hx => hno x (by rw [hs]; exact List.mem_cons_of_mem l hx))
        rw [h0]
        simp
      have hj : joinlines (splitlines content) = joinlines (l :: rest) := by
        rw [hs]
      have hstrip : strip (joinlines (l :: rest)) = strip content := by
        rw [← hj]
        rcases joinlines_splitlines content with h | h
        · rw [← h]
        · conv_rhs => rw [h]
          rw [strip_append_ws _ _ (by rfl)]
      constructor
      · intro hall
        have hne : ¬ strip content = [] := by
          intro h0
          rw [(strip_eq_nil_iff content).mp h0] at hall
          cases hall
        rw [split_to_chunks, hs, splitGo_nil_cons, hone, hstrip]
        simp [List.filter_cons, List.isEmpty_iff, hne]
      · intro hall
        have hnil : strip content = [] := (strip_eq_nil_iff content).mpr hall
        rw [split_to_chunks, hs, splitGo_nil_cons, hone, hstrip]
        simp [List.filter_cons, List.isEmpty_iff, hnil]
  · intro l rest hs hl ch hch
    rw [split_to_chunks, hs, splitGo_nil_cons] at hch
    have hmem : ch ∈ splitGo (l :: ([] : List Str)) rest :=
      (List.mem_filter.mp hch).1
    rcases splitGo_heads rest l [] hl ch hmem with h | h
    · obtain ⟨t, rfl⟩ := (h2mark_isPrefixOf_iff ch).mp h
      simp [List.isPrefixOf]
    · rw [h]
      simp [List.isPrefixOf]

/-- Witness for C5: a heading-free body gives one trimmed chunk, and a
body starting with a heading yields only heading chunks. -/
theorem split_no_heading_chunks_witness :
    split_to_chunks ['a', '\n', 'b', ' '] = [strip ['a', '\n', 'b', ' ']] ∧
      (['#', '#'] : Str).isPrefixOf ['#', '#', ' ', 'A'] = true :=
  ⟨((split_no_heading_chunks ['a', '\n', 'b', ' ']).1 (by decide)).1 (by decide),
   (split_no_heading_chunks ['#', '#', ' ', 'A']).2
     ['#', '#', ' ', 'A'] [] (by decide) (by decide)
     ['#', '#', ' ', 'A'] (by decide)⟩

/-- C10 as stated is false: in the body `"x\n## "` the chunk after the
preamble is `"##"` — trailing trimming removed the space of the bare
heading line, so the chunk does not begin with `"## "`. -/
theorem chunk_shape_cex :
    (split_to_chunks ['x', '\n', '#', '#', ' ']).tail = [['#', '#']] ∧
      h2mark.isPrefixOf ['#', '#'] = false := by decide

/-- C10 amended: every chunk of `split_to_chunks` is non-empty and equal
to its own whitespace-trimmed form, and every chunk except possibly the
first either begins with `"## "` or is exactly `"##"` (the trailing
space of a bare heading line is trimmed away). -/
theorem chunk_shape_invariant (content : Str) :
    (∀ ch ∈ split_to_chunks content, ch ≠ [] ∧ strip ch = ch) ∧
    (∀ ch ∈ (split_to_chunks content).tail,
       h2mark.isPrefixOf ch = true ∨ ch = ['#', '#']) := by
  constructor
  · intro ch hch
    have h1 : ch ≠ [] := by
      have := (List.mem_filter.mp hch).2
      simpa [List.isEmpty_iff] using this
    have h2 : ∃ s, ch = strip s :=
      splitGo_mem_strip (splitlines content) [] ch (List.mem_filter.mp hch).1
    obtain ⟨s, rfl⟩ := h2
    exact ⟨h1, strip_idem s⟩
  · intro ch hch
    cases hs : splitlines content with
    | nil =>
      rw [split_to_chunks, hs] at hch
      simp [splitGo] at hch
    | cons l rest =>
      rw [split_to_chunks, hs, splitGo_nil_cons] at hch
      have := mem_tail_filter _ ch hch
      exact splitGo_tail_heads rest l [] ch this

/-- Witness for C10 amended at the body `"x\n## A\n## B"`. -/
theorem chunk_shape_invariant_witness :
    ((['#', '#', ' ', 'A'] : Str) ≠ [] ∧
        strip ['#', '#', ' ', 'A'] = ['#', '#', ' ', 'A']) ∧
      (h2mark.isPrefixOf ['#', '#', ' ', 'B'] = true ∨
        (['#', '#', ' ', 'B'] : Str) = ['#', '#']) :=
  ⟨(chunk_shape_invariant cW).1 ['#', '#', ' ', 'A'] (by decide),
   (chunk_shape_invariant cW).2 ['#', '#', ' ', 'B'] (by decide)⟩

theorem tag_chunks_eq_replicate (chunks tags : List Str) :
    tag_chunks chunks tags =
      List.replicate chunks.length
        (match tags with | [] => miscTag | t :: _ => t) := by
  induction chunks with
  | nil => rfl
  | cons c cs ih => simp only [tag_chunks, List.map_cons, List.length_cons,
      List.replicate] at ih ⊢; rw [ih]

/-- C6: `tag_chunks` returns one tag per input chunk; every returned tag
is the first element of the tag list, or `'Misc'` when the tag list is
empty; the result does not depend on the chunk texts. -/
theorem tag_chunks_spec (chunks tags : List Str) :
    (tag_chunks chunks tags).length = chunks.length ∧
    (∀ x ∈ tag_chunks chunks tags,
       x = match tags with | [] => miscTag | t :: _ => t) ∧
    (∀ chunks2 : List Str, chunks2.length = chunks.length →
       tag_chunks chunks2 tags = tag_chunks chunks tags) := by
  refine ⟨by simp [tag_chunks], ?_, ?_⟩
  · intro x hx
    rw [tag_chunks_eq_replicate] at hx
    exact List.eq_of_mem_replicate hx
  · intro chunks2 h
    rw [tag_chunks_eq_replicate, tag_chunks_eq_replicate, h]

/-- Witness for C6 at a concrete input: with an empty tag list the
result is chunk-text independent (and each tag is the sentinel). -/
theorem tag_chunks_spec_witness :
    tag_chunks [['x'], ['y']] [] = tag_chunks [['a'], ['b']] [] ∧
      (['M', 'i', 's', 'c'] : Str) = miscTag :=
  ⟨(tag_chunks_spec [['a'], ['b']] []).2.2 [['x'], ['y']] (by decide),
   (tag_chunks_spec [['a'], ['b']] []).2.1 ['M', 'i', 's', 'c'] (by decide)⟩

/-! Helper lemmas on the document processor. -/

theorem generate_ok (d : DocState) (h : d.writeFails = none) (i : Str)
    (t : List Str) (f : Bool) :
    generate_yaml_metadata d i t f =
      .ok (if d.yamlFile.isSome && !f then d
           else { d with yamlFile := some (.wellFormed ⟨some i, .list t⟩) },
           d.yamlPath) := by
  unfold generate_yaml_metadata
  by_cases hc : d.yamlFile.isSome && !f
  · simp [hc]
  · simp [hc, h]

/-- With a readable file and a working write, the report entry is the
processed entry carrying the reconciled values and the chunk count. -/
theorem processOne_entry (d : DocState) (c : Str) (auto ow : Bool)
    (h1 : d.content = .ok c) (h2 : d.writeFails = none) :
    (processOne d auto ow).entry =
      .processed d.mdPath
        (reconcile ow d.stem (load_yaml_metadata d) (parse_all_headers c)).1
        (reconcile ow d.stem (load_yaml_metadata d) (parse_all_headers c)).2
        (split_to_chunks c).length := by
  simp only [processOne, h1, generate_ok d h2]
  split <;> rfl

/-- Same hypotheses: the chunk objects are those built from the body and
the reconciled values. -/
theorem processOne_chunks (d : DocState) (c : Str) (auto ow : Bool)
    (h1 : d.content = .ok c) (h2 : d.writeFails = none) :
    (processOne d auto ow).chunks =
      chunkObjs c
        (reconcile ow d.stem (load_yaml_metadata d) (parse_all_headers c)).1
        (reconcile ow d.stem (load_yaml_metadata d) (parse_all_headers c)).2
        d.mdPath := by
  simp only [processOne, h1, generate_ok d h2]
  split <;> rfl

/-- With a readable file, `generate_yaml_metadata` is invoked exactly
when `auto_generate_yaml && should_generate` holds, and always with the
flag `overwrite_yaml || not yaml-exists`. -/
theorem processOne_writeCall (d : DocState) (c : Str) (auto ow : Bool)
    (h1 : d.content = .ok c) :
    (processOne d auto ow).writeCall =
      if auto && should_generate d ow (load_yaml_metadata d)
          (reconcile ow d.stem (load_yaml_metadata d) (parse_all_headers c)).1
          (parse_all_headers c)
        then some (ow || !d.yamlFile.isSome)
        else none := by
  simp only [processOne, h1]
  split
  · cases hg : generate_yaml_metadata d
      (reconcile ow d.stem (load_yaml_metadata d) (parse_all_headers c)).1
      (reconcile ow d.stem (load_yaml_metadata d) (parse_all_headers c)).2
      (ow || !d.yamlFile.isSome) <;> rfl
  · rfl

/-- The boolean `should_generate` as a disjunction of propositions. -/
theorem should_generate_iff (d : DocState) (ow : Bool) (m : Metadata)
    (i : Str) (hs : List Str) :
    should_generate d ow m i hs = true ↔
      (d.yamlFile = none ∨ ow = true ∨ m.doc_id ≠ some i ∨
        (m.tags.truthy = false ∧ hs ≠ [])) := by
  simp only [should_generate, Bool.or_eq_true, Bool.and_eq_true,
    Bool.not_eq_true', Option.not_isSome, Option.isNone_iff_eq_none,
    decide_eq_true_eq, List.isEmpty_eq_false, or_assoc, ne_eq]

/-- C7: `load_yaml_metadata` probes the `.yaml` sidecar first and `.yml`
second; a present `.yaml` sidecar is returned (its parsed content, or the
empty metadata when parsing fails) and the `.yml` file is never
consulted; when neither exists, or the consulted sidecar fails to parse,
the empty metadata is returned (no exception — the function is total). -/
theorem load_probe_order (d : DocState) (m : Metadata)
    (y : Option SidecarContent) :
    (d.yamlFile = some (.wellFormed m) → load_yaml_metadata d = m) ∧
    (d.yamlFile.isSome = true →
       load_yaml_metadata { d with ymlFile := y } = load_yaml_metadata d) ∧
    (d.yamlFile = some .malformed → load_yaml_metadata d = emptyMeta) ∧
    (d.yamlFile = none → d.ymlFile = some (.wellFormed m) →
       load_yaml_metadata d = m) ∧
    (d.yamlFile = none → d.ymlFile = some .malformed →
       load_yaml_metadata d = emptyMeta) ∧
    (d.yamlFile = none → d.ymlFile = none →
       load_yaml_metadata d = emptyMeta) := by
  refine ⟨?_, ?_, ?_, ?_, ?_, ?_⟩
  · intro h; simp [load_yaml_metadata, h]
  · intro h
    match hy : d.yamlFile with
    | some .malformed => simp [load_yaml_metadata, hy]
    | some (.wellFormed m') => simp [load_yaml_metadata, hy]
    | none => rw [hy] at h; simp at h
  · intro h; simp [load_yaml_metadata, h]
  · intro h1 h2; simp [load_yaml_metadata, h1, h2]
  · intro h1 h2; simp [load_yaml_metadata, h1, h2]
  · intro h1 h2; simp [load_yaml_metadata, h1, h2]

/-- Witness for C7: on `dLoadW` the `.yaml` content wins and replacing
the (malformed) `.yml` file cannot change the result. -/
theorem load_probe_order_witness :
    load_yaml_metadata dLoadW = mW ∧
      load_yaml_metadata { dLoadW with ymlFile := none } =
        load_yaml_metadata dLoadW :=
  ⟨(load_probe_order dLoadW mW none).1 rfl,
   (load_probe_order dLoadW mW none).2.1 rfl⟩

/-- C8: when a `.yaml` sidecar already exists and `overwrite` is false,
`generate_yaml_metadata` performs no write: the filesystem state is
unchanged and the existing sidecar path is returned, with no error. -/
theorem save_existing_noop (d : DocState) (c : SidecarContent) (i : Str)
    (t : List Str) (h : d.yamlFile = some c) :
    generate_yaml_metadata d i t false = .ok (d, d.yamlPath) := by
  simp [generate_yaml_metadata, h]

/-- Witness for C8 at a concrete document with an existing sidecar. -/
theorem save_existing_noop_witness :
    generate_yaml_metadata dSaveW ['i'] [] false = .ok (dSaveW, dSaveW.yamlPath) :=
  save_existing_noop dSaveW .malformed ['i'] [] rfl

/-- C2: for a processed document, with `overwrite_descriptor` the
reconciled `doc_id` is the filename stem and the tags are the
header-derived tags; without it, `doc_id` is the Descriptor's `doc_id`
when present (else the stem) and the tags are the Descriptor's tags when
non-empty (a bare scalar coerced to a one-element list), else the
header-derived tags. -/
theorem reconcile_entry_spec (d : DocState) (c : Str) (auto : Bool)
    (h1 : d.content = .ok c) (h2 : d.writeFails = none) :
    (processOne d auto true).entry =
      .processed d.mdPath d.stem (parse_all_headers c)
        (split_to_chunks c).length ∧
    (processOne d auto false).entry =
      .processed d.mdPath
        (match (load_yaml_metadata d).doc_id with
         | some i => i
         | none => d.stem)
        (match (load_yaml_metadata d).tags with
         | .absent => parse_all_headers c
         | .scalar s => if s = [] then parse_all_headers c else [s]
         | .list l => if l = [] then parse_all_headers c else l)
        (split_to_chunks c).length := by
  constructor
  · rw [processOne_entry d c auto true h1 h2]
    rfl
  · rw [processOne_entry d c auto false h1 h2]
    have hd : (reconcile false d.stem (load_yaml_metadata d)
        (parse_all_headers c)).1 =
        match (load_yaml_metadata d).doc_id with
        | some i => i
        | none => d.stem := by
      simp only [reconcile, Bool.false_eq_true, if_false]
      cases (load_yaml_metadata d).doc_id <;> rfl
    have ht : (reconcile false d.stem (load_yaml_metadata d)
        (parse_all_headers c)).2 =
        match (load_yaml_metadata d).tags with
        | .absent => parse_all_headers c
        | .scalar s => if s = [] then parse_all_headers c else [s]
        | .list l => if l = [] then parse_all_headers c else l := by
      simp only [reconcile, Bool.false_eq_true, if_false]
      cases htag : (load_yaml_metadata d).tags with
      | absent => rfl
      | scalar s => cases s <;> simp [TagsVal.truthy, TagsVal.coerce]
      | list l => cases l <;> simp [TagsVal.truthy, TagsVal.coerce]
    rw [hd, ht]

/-- Witness for C2: on `dLoadW` (sidecar `doc_id` `"id"`, tags
`["t"]`, empty body) the processed entry carries the sidecar values. -/
theorem reconcile_entry_spec_witness :
    (processOne dLoadW true false).entry =
      .processed dLoadW.mdPath ['i', 'd'] [['t']] 0 := by
  have h := (reconcile_entry_spec dLoadW [] true rfl rfl).2
  rw [h]
  rfl

/-- C3 as stated is false: `dYml` has a sidecar for the document (the
`.yml` file), `overwrite_yaml` is false, the stored `doc_id` equals the
reconciled one, and the sidecar's tags are non-empty — none of the
claim's four conditions holds — yet the write call occurs, because the
code probes only the `.yaml` path for existence. -/
theorem sidecar_write_decision_cex :
    (processOne dYml true false).writeCall = some true ∧
    ¬ ((dYml.yamlFile = none ∧ dYml.ymlFile = none) ∨
        (false : Bool) = true ∨
        (load_yaml_metadata dYml).doc_id ≠
          some (reconcile false dYml.stem (load_yaml_metadata dYml)
                  (parse_all_headers [])).1 ∨
        ((load_yaml_metadata dYml).tags.truthy = false ∧
          parse_all_headers [] ≠ [])) := by decide

/-- C3 amended: with a readable file and auto generation enabled, the
sidecar write call occurs exactly when no primary-extension (`.yaml`)
sidecar exists, or `overwrite_yaml` is set, or the reconciled `doc_id`
differs from the sidecar's stored `doc_id`, or the sidecar had no tags
while the headers produced some; and the overwrite flag passed to the
call equals `overwrite_yaml OR .yaml-sidecar-did-not-exist`. -/
theorem sidecar_write_decision (d : DocState) (c : Str) (ow : Bool)
    (h1 : d.content = .ok c) :
    ((processOne d true ow).writeCall ≠ none ↔
      (d.yamlFile = none ∨ ow = true ∨
        (load_yaml_metadata d).doc_id ≠
          some (reconcile ow d.stem (load_yaml_metadata d)
                  (parse_all_headers c)).1 ∨
        ((load_yaml_metadata d).tags.truthy = false ∧
          parse_all_headers c ≠ []))) ∧
    (∀ b, (processOne d true ow).writeCall = some b →
       b = (ow || !d.yamlFile.isSome)) := by
  have hiff := should_generate_iff d ow (load_yaml_metadata d)
    (reconcile ow d.stem (load_yaml_metadata d) (parse_all_headers c)).1
    (parse_all_headers c)
  rw [processOne_writeCall d c true ow h1, Bool.true_and]
  constructor
  · rw [← hiff]
    by_cases hsg : should_generate d ow (load_yaml_metadata d)
        (reconcile ow d.stem (load_yaml_metadata d)
          (parse_all_headers c)).1 (parse_all_headers c) = true
    · simp [hsg]
    · rw [Bool.not_eq_true] at hsg
      simp [hsg]
  · intro b hb
    by_cases hsg : should_generate d ow (load_yaml_metadata d)
        (reconcile ow d.stem (load_yaml_metadata d)
          (parse_all_headers c)).1 (parse_all_headers c) = true
    · rw [hsg, if_pos rfl] at hb
      exact (Option.some_inj.mp hb).symm
    · rw [Bool.not_eq_true] at hsg
      rw [hsg] at hb
      simp at hb

/-- Witness for C3 amended: on `dYml` (no `.yaml` sidecar) a write call
occurs. -/
theorem sidecar_write_decision_witness :
    (processOne dYml true false).writeCall ≠ none :=
  ((sidecar_write_decision dYml [] false rfl).1).mpr (Or.inl rfl)

theorem processOne_read_error (d : DocState) (e : Str) (auto ow : Bool)
    (h : d.content = .error e) :
    processOne d auto ow = ⟨d, [], .error d.mdPath e, none⟩ := by
  simp [processOne, h]

/-- A write failure on a document with no `.yaml` sidecar (so a write is
attempted, with `overwrite = true`) yields an error entry with the file's
path and the raised message. -/
theorem processOne_write_error (d : DocState) (c msg : Str) (ow : Bool)
    (h1 : d.content = .ok c) (h2 : d.writeFails = some msg)
    (h3 : d.yamlFile = none) :
    (processOne d true ow).entry = .error d.mdPath msg := by
  have hsg : ∀ (i : Str) (hs : List Str),
      should_generate d ow (load_yaml_metadata d) i hs = true := by
    intro i hs
    simp [should_generate, h3]
  have hflag : (ow || !d.yamlFile.isSome) = true := by simp [h3]
  have hgen : ∀ (i : Str) (t : List Str),
      generate_yaml_metadata d i t true = .error msg := by
    intro i t
    simp [generate_yaml_metadata, h2]
  simp only [processOne, h1, Bool.true_and]
  rw [hsg, if_pos rfl, hflag, hgen]

theorem report_length (docs : List DocState) (auto ow : Bool) :
    (process_markdown_docs docs auto ow).2.2.processed.length +
      (process_markdown_docs docs auto ow).2.2.errors.length =
      docs.length := by
  induction docs with
  | nil => rfl
  | cons d ds ih =>
    simp only [process_markdown_docs]
    cases he : (processOne d auto ow).entry <;>
      simp [consEntry] <;> omega

theorem mem_report_error (docs : List DocState) (auto ow : Bool)
    (d : DocState) (hd : d ∈ docs) (f e : Str)
    (he : (processOne d auto ow).entry = .error f e) :
    (f, e) ∈ (process_markdown_docs docs auto ow).2.2.errors := by
  induction docs with
  | nil => simp at hd
  | cons d0 ds ih =>
    simp only [process_markdown_docs]
    rcases List.mem_cons.mp hd with h | h
    · subst h
      rw [he]
      simp [consEntry]
    · have hmem := ih h
      cases h0 : (processOne d0 auto ow).entry <;> simp [consEntry, hmem]

theorem mem_report_processed (docs : List DocState) (auto ow : Bool)
    (d : DocState) (hd : d ∈ docs) (f i : Str) (t : List Str) (n : Nat)
    (he : (processOne d auto ow).entry = .processed f i t n) :
    (f, i, t, n) ∈ (process_markdown_docs docs auto ow).2.2.processed := by
  induction docs with
  | nil => simp at hd
  | cons d0 ds ih =>
    simp only [process_markdown_docs]
    rcases List.mem_cons.mp hd with h | h
    · subst h
      rw [he]
      simp [consEntry]
    · have hmem := ih h
      cases h0 : (processOne d0 auto ow).entry <;> simp [consEntry, hmem]

/-- C9: every document yields exactly one report entry (so a single
file's failure never stops the walk and the processor always returns);
a read failure puts the file's path and message into the report's
errors; a sidecar write failure (here: a document with no `.yaml`
sidecar whose write raises) likewise; and each successfully processed
document's entry lands in the processed list even when other files
fail. -/
theorem per_file_errors_contained (docs : List DocState) (auto ow : Bool) :
    ((process_markdown_docs docs auto ow).2.2.processed.length +
       (process_markdown_docs docs auto ow).2.2.errors.length =
       docs.length) ∧
    (∀ d ∈ docs, ∀ msg, d.content = .error msg →
       (d.mdPath, msg) ∈ (process_markdown_docs docs auto ow).2.2.errors) ∧
    (∀ d ∈ docs, ∀ c msg, auto = true → d.content = .ok c →
       d.writeFails = some msg → d.yamlFile = none →
       (d.mdPath, msg) ∈ (process_markdown_docs docs auto ow).2.2.errors) ∧
    (∀ d ∈ docs, ∀ f i t n,
       (processOne d auto ow).entry = .processed f i t n →
       (f, i, t, n) ∈ (process_markdown_docs docs auto ow).2.2.processed) := by
  refine ⟨report_length docs auto ow, ?_, ?_, ?_⟩
  · intro d hd msg hmsg
    exact mem_report_error docs auto ow d hd _ _
      (by rw [processOne_read_error d msg auto ow hmsg])
  · intro d hd c msg hauto h1 h2 h3
    subst hauto
    exact mem_report_error docs true ow d hd _ _
      (processOne_write_error d c msg ow h1 h2 h3)
  · intro d hd f i t n he
    exact mem_report_processed docs auto ow d hd f i t n he

/-- Witness for C9: in a two-document run where the first file's read
fails, its error entry is in the report. -/
theorem per_file_errors_contained_witness :
    (dErrW.mdPath, ['m']) ∈
      (process_markdown_docs [dErrW, dSaveW] true false).2.2.errors :=
  (per_file_errors_contained [dErrW, dSaveW] true false).2.1 dErrW
    (List.mem_cons_self dErrW [dSaveW]) ['m'] rfl

theorem reconcile_false_tags_nil (stem : Str) (m : Metadata)
    (hs : List Str) (h : (reconcile false stem m hs).2 = []) : hs = [] := by
  simp only [reconcile, Bool.false_eq_true, if_false] at h
  by_cases ht : m.tags.truthy = true
  · rw [if_pos ht] at h
    cases htag : m.tags with
    | absent => rw [htag] at ht; cases ht
    | scalar s => rw [htag] at h; simp [TagsVal.coerce] at h
    | list l =>
      rw [htag] at ht h
      simp [TagsVal.truthy, List.isEmpty_eq_false] at ht
      simp [TagsVal.coerce] at h
      exact absurd h ht
  · rw [if_neg ht] at h
    exact h

/-- When the `.yaml` sidecar exists and `overwrite_yaml` is false, the
filesystem state is unchanged by processing (a triggered write call
no-ops inside `generate_yaml_metadata`). -/
theorem processOne_doc_unchanged (d : DocState) (auto : Bool)
    (hy : d.yamlFile.isSome = true) :
    (processOne d auto false).doc = d := by
  cases hc : d.content with
  | error e => simp [processOne, hc]
  | ok c =>
    simp only [processOne, hc]
    split
    · have hflag : (false || !d.yamlFile.isSome) = false := by simp [hy]
      rw [hflag]
      have hg : ∀ (i : Str) (t : List Str),
          generate_yaml_metadata d i t false = .ok (d, d.yamlPath) := by
        intro i t
        simp [generate_yaml_metadata, hy]
      rw [hg]
    · rfl

/-- Re-processing a document whose `.yaml` sidecar stores exactly a
previously reconciled pair (`doc_id` and a tag list that is empty only
when the headers are) is a no-op: the state is unchanged and the same
chunks and entry are produced, with no write call. -/
theorem processOne_stored_match (stem c i : Str) (t : List Str)
    (yml : Option SidecarContent) (wf : Option Str)
    (hnil : t = [] → parse_all_headers c = []) :
    processOne
        ⟨stem, Except.ok c, some (.wellFormed ⟨some i, .list t⟩), yml, wf⟩
        true false =
      ⟨⟨stem, Except.ok c, some (.wellFormed ⟨some i, .list t⟩), yml, wf⟩,
       chunkObjs c i t
         (DocState.mdPath
           ⟨stem, Except.ok c, some (.wellFormed ⟨some i, .list t⟩),
            yml, wf⟩),
       .processed
         (DocState.mdPath
           ⟨stem, Except.ok c, some (.wellFormed ⟨some i, .list t⟩),
            yml, wf⟩)
         i t (split_to_chunks c).length,
       none⟩ := by
  have hm : load_yaml_metadata
      ⟨stem, Except.ok c, some (.wellFormed ⟨some i, .list t⟩), yml, wf⟩ =
      ⟨some i, .list t⟩ := rfl
  have hrec : reconcile false stem (⟨some i, .list t⟩ : Metadata)
      (parse_all_headers c) = (i, t) := by
    cases ht : t with
    | nil =>
      subst ht
      simp [reconcile, TagsVal.truthy, TagsVal.coerce, hnil rfl]
    | cons a as =>
      simp [reconcile, TagsVal.truthy, TagsVal.coerce]
  have hsg : should_generate
      ⟨stem, Except.ok c, some (.wellFormed ⟨some i, .list t⟩), yml, wf⟩
      false (⟨some i, .list t⟩ : Metadata) i (parse_all_headers c) =
      false := by
    cases ht : t with
    | nil =>
      subst ht
      simp [should_generate, TagsVal.truthy, hnil rfl]
    | cons a as =>
      simp [should_generate, TagsVal.truthy]
  simp only [processOne, hm, hrec, hsg, Bool.true_and, Bool.false_eq_true,
    if_false]

/-- The key step for idempotence: re-processing the state produced by a
first `auto_generate_yaml := true, overwrite_yaml := false` run yields
the same state, chunks and entry (only the write-call observation can
differ, since the first run may have created a missing sidecar). -/
theorem processOne_stable (d : DocState) :
    (processOne (processOne d true false).doc true false).doc =
        (processOne d true false).doc ∧
    (processOne (processOne d true false).doc true false).chunks =
        (processOne d true false).chunks ∧
    (processOne (processOne d true false).doc true false).entry =
        (processOne d true false).entry := by
  cases hc : d.content with
  | error e =>
    have h0 : processOne d true false = ⟨d, [], .error d.mdPath e, none⟩ :=
      processOne_read_error d e true false hc
    rw [h0]
    exact ⟨by rw [h0], by rw [h0], by rw [h0]⟩
  | ok c =>
    cases hy : d.yamlFile with
    | some cnt =>
      have hdoc : (processOne d true false).doc = d :=
        processOne_doc_unchanged d true (by rw [hy]; rfl)
      rw [hdoc]
      exact ⟨hdoc, rfl, rfl⟩
    | none =>
      have hsg : ∀ (i : Str) (hs : List Str),
          should_generate d false (load_yaml_metadata d) i hs = true := by
        intro i hs
        simp [should_generate, hy]
      have hflag : (false || !d.yamlFile.isSome) = true := by simp [hy]
      cases hw : d.writeFails with
      | some e =>
        have hgen : ∀ (i : Str) (t : List Str),
            generate_yaml_metadata d i t true = .error e := by
          intro i t
          simp [generate_yaml_metadata, hw]
        have h0 : processOne d true false =
            ⟨d, [], .error d.mdPath e, some true⟩ := by
          simp only [processOne, hc, Bool.true_and]
          rw [hsg, if_pos rfl, hflag, hgen]
        rw [h0]
        exact ⟨by rw [h0], by rw [h0], by rw [h0]⟩
      | none =>
        have hgen : ∀ (i : Str) (t : List Str),
            generate_yaml_metadata d i t true =
              .ok (⟨d.stem, d.content,
                    some (.wellFormed ⟨some i, .list t⟩),
                    d.ymlFile, d.writeFails⟩,
                   d.yamlPath) := by
          intro i t
          rw [generate_ok d hw]
          simp [hy]
        have h0 : processOne d true false =
            ⟨⟨d.stem, Except.ok c,
              some (.wellFormed
                ⟨some (reconcile false d.stem (load_yaml_metadata d)
                        (parse_all_headers c)).1,
                 .list (reconcile false d.stem (load_yaml_metadata d)
                        (parse_all_headers c)).2⟩),
              d.ymlFile, d.writeFails⟩,
             chunkObjs c
               (reconcile false d.stem (load_yaml_metadata d)
                 (parse_all_headers c)).1
               (reconcile false d.stem (load_yaml_metadata d)
                 (parse_all_headers c)).2
               d.mdPath,
             .processed d.mdPath
               (reconcile false d.stem (load_yaml_metadata d)
                 (parse_all_headers c)).1
               (reconcile false d.stem (load_yaml_metadata d)
                 (parse_all_headers c)).2
               (split_to_chunks c).length,
             some true⟩ := by
          simp only [processOne, hc, Bool.true_and]
          rw [hsg, if_pos rfl, hflag, hgen, hc]
        have h1 := processOne_stored_match d.stem c
          (reconcile false d.stem (load_yaml_metadata d)
            (parse_all_headers c)).1
          (reconcile false d.stem (load_yaml_metadata d)
            (parse_all_headers c)).2
          d.ymlFile d.writeFails
          (reconcile_false_tags_nil d.stem (load_yaml_metadata d)
            (parse_all_headers c))
        rw [h0, h1]
        exact ⟨rfl, rfl, rfl⟩

/-- C1: running the processor twice with `auto_generate_yaml := true`
and `overwrite_yaml := false` on the tree produced by the first run
changes nothing: every sidecar's content is identical before and after
the second run, and the second run's chunk accumulator and report equal
the first run's. -/
theorem processor_idempotent (docs : List DocState) :
    (process_markdown_docs
        (process_markdown_docs docs true false).1 true false).1 =
      (process_markdown_docs docs true false).1 ∧
    (process_markdown_docs
        (process_markdown_docs docs true false).1 true false).2.1 =
      (process_markdown_docs docs true false).2.1 ∧
    (process_markdown_docs
        (process_markdown_docs docs true false).1 true false).2.2 =
      (process_markdown_docs docs true false).2.2 := by
  induction docs with
  | nil => exact ⟨rfl, rfl, rfl⟩
  | cons d ds ih =>
    obtain ⟨h1, h2, h3⟩ := processOne_stable d
    obtain ⟨i1, i2, i3⟩ := ih
    simp only [process_markdown_docs] at h1 h2 h3 i1 i2 i3 ⊢
    refine ⟨?_, ?_, ?_⟩
    · rw [h1, i1]
    · rw [h2, i2]
    · rw [h3, i3]

end RagUtils
